import Mathlib

/-!
Verification development for the fintech review analytics pipeline.

Strings are modelled as `List Char`. Python `str.lower`, the regular
expressions `[^a-zA-Z\s]`, `\s+` and word-boundary search, and `str.strip`
are embedded character by character.  `str.lower` is modelled on the
ASCII range (the only range the pipeline's keyword matching depends on);
`\s` is modelled as the six ASCII whitespace characters recognised by the
`re` module.  A pandas cell that may be NaN is modelled as `Option`.
-/

/-- ASCII lowercase letter test, `a`-`z` (code points 97-122). -/
def isLowerAlpha (c : Char) : Bool :=
  decide (97 ≤ c.toNat) && decide (c.toNat ≤ 122)

/-- ASCII uppercase letter test, `A`-`Z` (code points 65-90). -/
def isUpperAlpha (c : Char) : Bool :=
  decide (65 ≤ c.toNat) && decide (c.toNat ≤ 90)

/-- The class `[a-zA-Z]` used by the regex in `preprocess_text`. -/
def isAsciiAlpha (c : Char) : Bool :=
  isLowerAlpha c || isUpperAlpha c

/-- The regex class `\s` (space, tab, newline, carriage return, vertical
tab, form feed). -/
def pyIsSpace (c : Char) : Bool :=
  c == ' ' || c == '\t' || c == '\n' || c == '\r' ||
    c == Char.ofNat 11 || c == Char.ofNat 12

/-- The regex word-character class `\w` restricted to ASCII:
`[a-zA-Z0-9_]`. -/
def isWordChar (c : Char) : Bool :=
  isAsciiAlpha c || (decide (48 ≤ c.toNat) && decide (c.toNat ≤ 57)) || c == '_'

/-- Python `str.lower` on a single character (ASCII range). -/
def pyLowerChar (c : Char) : Char :=
  if 65 ≤ c.toNat ∧ c.toNat ≤ 90 then Char.ofNat (c.toNat + 32) else c

/-- Python `str.upper` on a single character (ASCII range). -/
def pyUpperChar (c : Char) : Char :=
  if 97 ≤ c.toNat ∧ c.toNat ≤ 122 then Char.ofNat (c.toNat - 32) else c

/-- `text.lower()` from `preprocess_text`. -/
def pyLowerStr (l : List Char) : List Char := l.map pyLowerChar

/-- One character of `re.sub(r'[^a-zA-Z\s]', ' ', text)`: characters
outside `[a-zA-Z\s]` are replaced by a space. -/
def subChar (c : Char) : Char :=
  if isAsciiAlpha c || pyIsSpace c then c else ' '

/-- `re.sub(r'[^a-zA-Z\s]', ' ', text)` from `preprocess_text`. -/
def subNonAlpha (l : List Char) : List Char := l.map subChar

/-- `re.sub(r'\s+', ' ', text)`: every maximal run of `\s` characters is
replaced by a single space. -/
def collapseWs : List Char → List Char
  | [] => []
  | [c] => if pyIsSpace c then [' '] else [c]
  | c₁ :: c₂ :: rest =>
    if pyIsSpace c₁ then
      if pyIsSpace c₂ then collapseWs (c₂ :: rest)
      else ' ' :: collapseWs (c₂ :: rest)
    else c₁ :: collapseWs (c₂ :: rest)

/-- Removal of trailing whitespace (the right half of `str.strip`). -/
def dropTrailWs (l : List Char) : List Char :=
  (l.reverse.dropWhile pyIsSpace).reverse

/-- Python `str.strip()`. -/
def pyStrip (l : List Char) : List Char :=
  dropTrailWs (l.dropWhile pyIsSpace)

/-- `ThematicAnalyzer.preprocess_text`: NaN maps to the empty string;
otherwise lowercase, replace `[^a-zA-Z\s]` by spaces, collapse whitespace
runs, and strip. -/
def preprocess_text : Option (List Char) → List Char
  | none => []
  | some s => pyStrip (collapseWs (subNonAlpha (pyLowerStr s)))

/-- The fixed seven-bucket keyword dictionary built in
`ThematicAnalyzer.__init__` (`self.theme_keywords`), in its Python
insertion order. -/
def theme_keywords : List (String × List String) :=
  [("Login & Access Issues",
    ["login", "log in", "password", "forgot", "account", "access",
     "verification", "authenticate", "biometric", "fingerprint", "face id",
     "locked", "blocked", "security", "pin", "code", "verify", "registered",
     "registration"]),
   ("Transaction Problems",
    ["transfer", "transaction", "payment", "send money", "failed", "fail",
     "pending", "stuck", "complete", "process", "send", "receive", "money",
     "amount", "balance", "deduct", "charge", "fee", "bill", "payment"]),
   ("App Performance & Bugs",
    ["crash", "freeze", "frozen", "slow", "lag", "bug", "error",
     "not working", "close", "stop", "hang", "loading", "response", "speed",
     "fast", "quick", "update", "version", "install", "download",
     "technical", "problem", "issue"]),
   ("User Interface & Experience",
    ["interface", "ui", "ux", "design", "layout", "navigation", "menu",
     "complicated", "confusing", "hard to use", "complex", "simple", "easy",
     "intuitive", "beautiful", "ugly", "modern", "old", "outdated"]),
   ("Customer Support",
    ["support", "help", "service", "assistance", "contact", "call", "phone",
     "email", "response", "complain", "complaint", "issue", "resolve",
     "customer care", "helpline", "assist"]),
   ("Features & Functionality",
    ["feature", "function", "add", "missing", "should have", "need",
     "improve", "update", "version", "new", "option", "setting",
     "notification", "alert", "reminder", "history", "statement"]),
   ("Network & Connectivity",
    ["network", "internet", "connection", "connect", "online", "offline",
     "wifi", "data", "signal", "server", "maintenance", "down"])]

/-- `re.search(r'\b' + re.escape(keyword) + r'\b', text)` viewed as a
Boolean, for the keywords of the dictionary (each starts and ends with a
word character, so `\b` demands that the neighbouring characters, when
they exist, are not word characters). -/
def wordBoundedMatch (kw text : List Char) : Bool :=
  (List.range (text.length + 1)).any (fun i =>
    decide ((text.drop i).take kw.length = kw) &&
    (decide (i = 0) || !(isWordChar (text.getD (i - 1) ' '))) &&
    (decide (text.length ≤ i + kw.length) ||
      !(isWordChar (text.getD (i + kw.length) ' '))))

/-- `', '.join` on a nonempty list of theme names, as in
`categorize_review_themes`. -/
def joinComma : List (List Char) → List Char
  | [] => []
  | [a] => a
  | a :: b :: rest => a ++ (", ".data) ++ joinComma (b :: rest)

/-- `ThematicAnalyzer.categorize_review_themes`: preprocess the text,
collect (via the `for`/`break` loop) each theme with at least one
keyword matching as a whole word, and join with `', '`, defaulting to
`'Other'`. -/
def categorize_review_themes (review_text : Option (List Char)) : List Char :=
  let text_lower := preprocess_text review_text
  let matched_themes := theme_keywords.foldl
    (fun acc p =>
      if p.2.any (fun kw => wordBoundedMatch kw.data text_lower) then
        acc ++ [p.1]
      else acc) []
  if matched_themes.isEmpty then ("Other".data)
  else joinComma (matched_themes.map (fun s => s.data))

/-- The themes whose keyword bucket has at least one whole-word match
against the preprocessed text, in dictionary order.  This is the
specification-side description of the loop in
`categorize_review_themes`. -/
def matchedThemes (review_text : Option (List Char)) : List String :=
  (theme_keywords.filter
    (fun p => p.2.any
      (fun kw => wordBoundedMatch kw.data (preprocess_text review_text)))).map
    Prod.fst

/-!
Sentiment analysis (`scripts/sentiment_analysis.py`).  The DistilBERT
pipeline is external; it is abstracted as an oracle.  A classifier result
is a label together with a confidence score (floats are modelled as `ℚ`).
-/

/-- One result dictionary of the sentiment pipeline. -/
structure SentResult where
  label : List Char
  score : ℚ
deriving DecidableEq

/-- Python `range(0, n, bs)` for a positive step `bs`. -/
def pyRange0 (n bs : Nat) : List Nat :=
  (List.range ((n + bs - 1) / bs)).map (fun j => j * bs)

/-- The consecutive slices `l[i:i+bs]` for `i in range(0, len(l), bs)`. -/
def pySlices (bs : Nat) (l : List α) : List (List α) :=
  (pyRange0 l.length bs).map (fun i => (l.drop i).take bs)

/-- `SentimentAnalyzer.analyze_sentiment_batch`: call the pipeline inside
`try`; on an exception return one `NEUTRAL`/`0.0` result per input text.
The pipeline call is modelled by an oracle returning `none` when it
raises. -/
def analyze_sentiment_batch
    (pipelineCall : List (List Char) → Option (List SentResult))
    (texts : List (List Char)) : List SentResult :=
  match pipelineCall texts with
  | some results => results
  | none => List.replicate texts.length ⟨"NEUTRAL".data, 0⟩

/-- The batching loop of `SentimentAnalyzer.analyze_reviews`: for
`i in range(0, len(df), batch_size)` classify `df[i:i+batch_size]` and
append every result, before label normalisation. -/
def analyze_reviews_raw
    (classifyBatch : List (List Char) → List SentResult)
    (texts : List (List Char)) (batch_size : Nat) : List SentResult :=
  (pyRange0 texts.length batch_size).foldl
    (fun acc i => acc ++ classifyBatch ((texts.drop i).take batch_size)) []

/-- `df['sentiment_label'].str.upper()` applied to one result. -/
def upperResult (r : SentResult) : SentResult :=
  ⟨r.label.map pyUpperChar, r.score⟩

/-- `SentimentAnalyzer.analyze_reviews`: the batching loop followed by
the `.str.upper()` normalisation of the label column. -/
def analyze_reviews
    (classifyBatch : List (List Char) → List SentResult)
    (texts : List (List Char)) (batch_size : Nat) : List SentResult :=
  (analyze_reviews_raw classifyBatch texts batch_size).map upperResult

/-!
Data preprocessing (`scripts/data_preprocessing.py`).  A raw CSV row is
modelled by the two columns the cited steps read, and the derived
`review_length` column is carried as the second component of a pair.
-/

/-- One raw review row (the columns used by the dedup and length steps). -/
structure PrepRow where
  review_id : List Char
  review_text : List Char
deriving DecidableEq

/-- `df.drop_duplicates(subset=['review_id'], keep='first')`: keep a row
iff its `review_id` has not occurred earlier; `seen` accumulates the ids
already kept. -/
def dropDupAux (seen : List (List Char)) : List PrepRow → List PrepRow
  | [] => []
  | r :: rs =>
    if r.review_id ∈ seen then dropDupAux seen rs
    else r :: dropDupAux (r.review_id :: seen) rs

/-- The deduplication step of `preprocess_reviews` (line 25). -/
def drop_duplicates_first (rows : List PrepRow) : List PrepRow :=
  dropDupAux [] rows

/-- `df['review_length'] = df['review_text'].str.len()` for one row. -/
def addLength (r : PrepRow) : PrepRow × Nat :=
  (r, r.review_text.length)

/-- `preprocess_reviews`, restricted to the row-transforming steps the
spec claims describe: dedup by `review_id` keeping the first occurrence,
attach `review_length`, and keep rows with `review_length >= 5`. -/
def preprocess_reviews (rows : List PrepRow) : List (PrepRow × Nat) :=
  ((drop_duplicates_first rows).map addLength).filter
    (fun p => decide (5 ≤ p.2))

/-!
Database insertion (`scripts/database_insert.py`).  The PostgreSQL
`reviews` table is a list of records in insertion order whose primary key
is `review_id`; `INSERT ... ON CONFLICT (review_id) DO NOTHING` keeps the
table unchanged when the key is already present.  psycopg2 transaction
semantics: statements act on a working copy of the committed state;
`commit` publishes it, `rollback` discards it.  A run is parameterised by
`failAt`, the index of the database operation (batch statement or final
commit) at which an exception is raised, `none` for a clean run.
-/

/-- One row of the analysed CSV as read by `insert_reviews`; the three
`row.get` columns may be absent (`none`). -/
structure InsRow where
  review_id : List Char
  bank : List Char
  review_text : List Char
  rating : Int
  date : List Char
  sentiment_label : Option (List Char)
  sentiment_score : Option ℚ
  themes : Option (List Char)
  source : Option (List Char)
deriving DecidableEq

/-- One record of the `reviews` table. -/
structure ReviewRec where
  review_id : List Char
  bank_id : Nat
  review_text : List Char
  rating : Int
  review_date : List Char
  sentiment_label : List Char
  sentiment_score : ℚ
  themes : List Char
  source : List Char
deriving DecidableEq

/-- The tuple appended to `records` for one row, with the `row.get`
defaults of `insert_reviews`. -/
def mkRecord (row : InsRow) (bank_id : Nat) : ReviewRec :=
  ⟨row.review_id, bank_id, row.review_text, row.rating, row.date,
   row.sentiment_label.getD ("NEUTRAL".data),
   row.sentiment_score.getD (1 / 2),
   row.themes.getD [],
   row.source.getD ("Google Play".data)⟩

/-- Python `dict.get` on an association list with distinct keys. -/
def pyDictGet (m : List (List Char × Nat)) (k : List Char) : Option Nat :=
  (m.find? (fun p => p.1 == k)).map Prod.snd

/-- The record-preparation loop of `insert_reviews`:
`bank_id = bank_mapping.get(row['bank']); if bank_id: records.append(...)`.
Note `if bank_id:` is Python truthiness: both a missing key (`None`) and
a zero id skip the row. -/
def prepare_records (rows : List InsRow) (mapping : List (List Char × Nat)) :
    List ReviewRec :=
  rows.foldl
    (fun records row =>
      match pyDictGet mapping row.bank with
      | none => records
      | some bank_id =>
        if bank_id = 0 then records else records ++ [mkRecord row bank_id])
    []

/-- The primary-key presence test behind `ON CONFLICT (review_id)`. -/
def hasId (tbl : List ReviewRec) (id : List Char) : Bool :=
  tbl.any (fun x => x.review_id == id)

/-- `INSERT INTO reviews ... ON CONFLICT (review_id) DO NOTHING` for one
record. -/
def insertOnConflict (tbl : List ReviewRec) (r : ReviewRec) : List ReviewRec :=
  if hasId tbl r.review_id then tbl else tbl ++ [r]

/-- `cursor.executemany` of the insert statement over one batch. -/
def applyBatch (tbl : List ReviewRec) (batch : List ReviewRec) :
    List ReviewRec :=
  batch.foldl insertOnConflict tbl

/-- Rows actually inserted by one batch (the psycopg2 `rowcount`
accumulation used for `inserted_count`). -/
def countNew (tbl : List ReviewRec) (batch : List ReviewRec) : Nat :=
  (applyBatch tbl batch).length - tbl.length

/-- The batched insertion loop: execute each batch in turn on the working
state; the operation with index `failAt` (when reached) raises.  On
success the result carries the working table, the inserted count, and the
index the final commit operation would get. -/
def insert_reviews_go (tbl : List ReviewRec) :
    List (List ReviewRec) → Nat → Option Nat → Nat →
      Except Unit (List ReviewRec × Nat × Nat)
  | [], i, _, count => .ok (tbl, count, i)
  | b :: bs, i, failAt, count =>
    if failAt = some i then .error ()
    else insert_reviews_go (applyBatch tbl b) bs (i + 1) failAt
      (count + countNew tbl b)

/-- `DataInserter.insert_reviews`: prepare the records, insert them in
batches of 100, then commit; any exception is caught, the transaction is
rolled back (the working state is discarded, leaving the committed state
`committed`), and `0` is returned. -/
def insert_reviews (committed : List ReviewRec) (rows : List InsRow)
    (mapping : List (List Char × Nat)) (failAt : Option Nat) :
    List ReviewRec × Nat :=
  let records := prepare_records rows mapping
  let batches := pySlices 100 records
  match insert_reviews_go committed batches 0 failAt 0 with
  | .error _ => (committed, 0)
  | .ok (working, count, commitOp) =>
    if failAt = some commitOp then (committed, 0) else (working, count)

/-- One record of the `banks` table (`bank_id SERIAL PRIMARY KEY`). -/
structure BankRec where
  bank_id : Nat
  bank_name : List Char
  app_name : List Char
deriving DecidableEq

/-- The loop of `insert_banks`: for each `(bank_name, app_name)` run a
SELECT (one operation); if the bank is absent run an INSERT .. RETURNING
(a second operation) appending a record with the next serial id.  The
operation with index `failAt` raises.  On success the result carries the
working table, the next serial id, the accumulated name-to-id mapping,
and the index the commit operation would get. -/
def insert_banks_go (tbl : List BankRec) (nextId : Nat)
    (acc : List (List Char × Nat)) :
    List (List Char × List Char) → Nat → Option Nat →
      Except Unit (List BankRec × Nat × List (List Char × Nat) × Nat)
  | [], i, _ => .ok (tbl, nextId, acc, i)
  | (name, app) :: rest, i, failAt =>
    if failAt = some i then .error ()
    else
      match tbl.find? (fun b => b.bank_name == name) with
      | some b =>
        insert_banks_go tbl nextId (acc ++ [(name, b.bank_id)]) rest
          (i + 1) failAt
      | none =>
        if failAt = some (i + 1) then .error ()
        else
          insert_banks_go (tbl ++ [⟨nextId, name, app⟩]) (nextId + 1)
            (acc ++ [(name, nextId)]) rest (i + 2) failAt

/-- `DataInserter.insert_banks`: run the loop, then commit; any exception
is caught, the transaction is rolled back (leaving the committed state),
and the empty mapping is returned. -/
def insert_banks (committed : List BankRec) (nextId : Nat)
    (banks_data : List (List Char × List Char)) (failAt : Option Nat) :
    List BankRec × List (List Char × Nat) :=
  match insert_banks_go committed nextId [] banks_data 0 failAt with
  | .error _ => (committed, [])
  | .ok (working, _, acc, commitOp) =>
    if failAt = some commitOp then (committed, []) else (working, acc)

/-- An exception is actually raised during `insert_banks`: the failure
index `failAt` falls on an operation the run executes (one of the SELECT
or INSERT statements, or the final commit). -/
def banksRaises (committed : List BankRec) (nextId : Nat)
    (banks_data : List (List Char × List Char)) (k : Nat) : Prop :=
  match insert_banks_go committed nextId [] banks_data 0 (some k) with
  | .error _ => True
  | .ok (_, _, _, commitOp) => k = commitOp

/-!
TF-IDF keyword extraction (`ThematicAnalyzer.extract_keywords_tfidf`).
The sklearn vectorizer is external; it is abstracted as an oracle taking
the preprocessed texts and returning the `(feature name, mean tf-idf
score)` pairs, or `none` when `fit_transform` raises.  The Python
`list.sort(key=lambda x: x[1], reverse=True)` is modelled as a stable
insertion sort descending on the score. -/

/-- Stable descending insertion on the score component. -/
def insertDesc (p : List Char × ℚ) :
    List (List Char × ℚ) → List (List Char × ℚ)
  | [] => [p]
  | q :: rest => if q.2 < p.2 then p :: q :: rest else q :: insertDesc p rest

/-- `keyword_scores.sort(key=lambda x: x[1], reverse=True)`. -/
def sortScoresDesc (l : List (List Char × ℚ)) : List (List Char × ℚ) :=
  l.foldr insertDesc []

/-- `ThematicAnalyzer.extract_keywords_tfidf`: preprocess the texts, run
the vectorizer inside `try` (empty list on an exception), sort the
`(feature name, score)` pairs by descending score and keep the top 30. -/
def extract_keywords_tfidf
    (vectorizer : List (List Char) → Option (List (List Char × ℚ)))
    (texts : List (Option (List Char))) : List (List Char × ℚ) :=
  match vectorizer (texts.map preprocess_text) with
  | none => []
  | some keyword_scores => (sortScoresDesc keyword_scores).take 30

/-!
Lemmas about the descending insertion sort used by
`extract_keywords_tfidf`.
-/

theorem mem_insertDesc {x p : List Char × ℚ} {l : List (List Char × ℚ)} :
    x ∈ insertDesc p l ↔ x = p ∨ x ∈ l := by
  induction l with
  | nil => simp [insertDesc]
  | cons q rest ih =>
    simp only [insertDesc]
    split
    · simp [List.mem_cons]
    · simp only [List.mem_cons, ih]
      tauto

theorem pairwise_insertDesc {p : List Char × ℚ} {l : List (List Char × ℚ)}
    (h : List.Pairwise (fun a b => b.2 ≤ a.2) l) :
    List.Pairwise (fun a b => b.2 ≤ a.2) (insertDesc p l) := by
  induction l with
  | nil => simp [insertDesc]
  | cons q rest ih =>
    rw [List.pairwise_cons] at h
    obtain ⟨hq, hrest⟩ := h
    simp only [insertDesc]
    split
    · rename_i hlt
      refine List.pairwise_cons.mpr ⟨?_, List.pairwise_cons.mpr ⟨hq, hrest⟩⟩
      intro y hy
      rcases List.mem_cons.mp hy with rfl | hy'
      · exact le_of_lt hlt
      · exact le_trans (hq y hy') (le_of_lt hlt)
    · rename_i hnlt
      refine List.pairwise_cons.mpr ⟨?_, ih hrest⟩
      intro y hy
      rcases mem_insertDesc.mp hy with rfl | hy'
      · exact le_of_not_lt hnlt
      · exact hq y hy'

theorem pairwise_sortScoresDesc (l : List (List Char × ℚ)) :
    List.Pairwise (fun a b => b.2 ≤ a.2) (sortScoresDesc l) := by
  induction l with
  | nil => simp [sortScoresDesc]
  | cons a t ih => exact pairwise_insertDesc ih

theorem mem_sortScoresDesc {x : List Char × ℚ} {l : List (List Char × ℚ)} :
    x ∈ sortScoresDesc l ↔ x ∈ l := by
  induction l with
  | nil => simp [sortScoresDesc]
  | cons a t ih =>
    show x ∈ insertDesc a (sortScoresDesc t) ↔ _
    rw [mem_insertDesc, ih]
    simp [List.mem_cons, eq_comm]

/-- C9: `extract_keywords_tfidf` returns at most 30 pairs, sorted in
non-increasing order of score and drawn from the vectorizer's output,
and returns the empty list when the vectorizer raises. -/
theorem extract_keywords_le30_sorted
    (vectorizer : List (List Char) → Option (List (List Char × ℚ)))
    (texts : List (Option (List Char))) :
    (vectorizer (texts.map preprocess_text) = none →
      extract_keywords_tfidf vectorizer texts = [])
    ∧ ∀ pairs, vectorizer (texts.map preprocess_text) = some pairs →
        (extract_keywords_tfidf vectorizer texts).length ≤ 30
        ∧ List.Pairwise (fun a b => b.2 ≤ a.2)
            (extract_keywords_tfidf vectorizer texts)
        ∧ ∀ p ∈ extract_keywords_tfidf vectorizer texts, p ∈ pairs := by
  constructor
  · intro h
    simp [extract_keywords_tfidf, h]
  · intro pairs h
    have he : extract_keywords_tfidf vectorizer texts
        = (sortScoresDesc pairs).take 30 := by
      simp [extract_keywords_tfidf, h]
    refine ⟨?_, ?_, ?_⟩
    · rw [he]
      exact List.length_take_le 30 _
    · rw [he]
      exact (pairwise_sortScoresDesc pairs).sublist (List.take_sublist _ _)
    · intro p hp
      rw [he] at hp
      exact mem_sortScoresDesc.mp (List.take_subset _ _ hp)

/-- Witness for C9 at a concrete vectorizer output. -/
theorem extract_keywords_le30_sorted_witness :
    (extract_keywords_tfidf
        (fun _ => some [("speed".data, (1 : ℚ)), ("crash".data, 2)])
        []).length ≤ 30
    ∧ List.Pairwise (fun a b : List Char × ℚ => b.2 ≤ a.2)
        (extract_keywords_tfidf
          (fun _ => some [("speed".data, (1 : ℚ)), ("crash".data, 2)]) []) := by
  have h := (extract_keywords_le30_sorted
    (fun _ => some [("speed".data, (1 : ℚ)), ("crash".data, 2)]) []).2
    [("speed".data, (1 : ℚ)), ("crash".data, 2)] rfl
  exact ⟨h.1, h.2.1⟩

/-!
Lemmas about the `drop_duplicates(keep='first')` model.
-/

theorem dropDupAux_sublist :
    ∀ (rows : List PrepRow) (seen : List (List Char)),
      List.Sublist (dropDupAux seen rows) rows := by
  intro rows
  induction rows with
  | nil =>
    intro seen
    simp [dropDupAux]
  | cons r rs ih =>
    intro seen
    simp only [dropDupAux]
    split
    · exact (ih seen).cons r
    · exact (ih _).cons₂ r

theorem dropDupAux_not_seen :
    ∀ (rows : List PrepRow) (seen : List (List Char)) (r : PrepRow),
      r ∈ dropDupAux seen rows → r.review_id ∉ seen := by
  intro rows
  induction rows with
  | nil =>
    intro seen r hr
    simp [dropDupAux] at hr
  | cons h rs ih =>
    intro seen r hr
    simp only [dropDupAux] at hr
    split at hr
    · exact ih seen r hr
    · rcases List.mem_cons.mp hr with rfl | hr'
      · assumption
      · have hrec := ih _ r hr'
        exact fun hmem => hrec (List.mem_cons_of_mem _ hmem)

theorem dropDupAux_find :
    ∀ (rows : List PrepRow) (seen : List (List Char)) (r : PrepRow),
      r ∈ dropDupAux seen rows →
      rows.find? (fun x => x.review_id == r.review_id) = some r := by
  intro rows
  induction rows with
  | nil =>
    intro seen r hr
    simp [dropDupAux] at hr
  | cons h rs ih =>
    intro seen r hr
    simp only [dropDupAux] at hr
    by_cases hs : h.review_id ∈ seen
    · rw [if_pos hs] at hr
      have hnot := dropDupAux_not_seen rs seen r hr
      have hne : (h.review_id == r.review_id) = false := by
        rw [beq_eq_false_iff_ne]
        intro he
        exact hnot (he ▸ hs)
      rw [List.find?_cons_of_neg _ (by simp [hne])]
      exact ih seen r hr
    · rw [if_neg hs] at hr
      rcases List.mem_cons.mp hr with rfl | hr'
      · rw [List.find?_cons_of_pos _ (by simp)]
      · have hnot := dropDupAux_not_seen rs _ r hr'
        have hne : (h.review_id == r.review_id) = false := by
          rw [beq_eq_false_iff_ne]
          intro he
          exact hnot (by rw [← he]; exact List.mem_cons_self _ _)
        rw [List.find?_cons_of_neg _ (by simp [hne])]
        exact ih _ r hr'

theorem dropDupAux_ids_nodup :
    ∀ (rows : List PrepRow) (seen : List (List Char)),
      ((dropDupAux seen rows).map (fun r => r.review_id)).Nodup := by
  intro rows
  induction rows with
  | nil =>
    intro seen
    simp [dropDupAux]
  | cons h rs ih =>
    intro seen
    simp only [dropDupAux]
    split
    · exact ih seen
    · simp only [List.map_cons, List.nodup_cons]
      refine ⟨?_, ih _⟩
      intro hmem
      rcases List.mem_map.mp hmem with ⟨r, hr, hid⟩
      exact (dropDupAux_not_seen rs _ r hr) (by rw [hid]; exact List.mem_cons_self _ _)

theorem map_fst_addLength (l : List PrepRow) :
    (l.map addLength).map Prod.fst = l := by
  induction l with
  | nil => rfl
  | cons a t ih => simp [addLength, ih]

theorem map_id_addLength (l : List PrepRow) :
    (l.map addLength).map (fun p => p.1.review_id)
      = l.map (fun r => r.review_id) := by
  induction l with
  | nil => rfl
  | cons a t ih => simp [addLength, ih]

/-- C3: the output of `preprocess_reviews` carries each `review_id` at
most once, every surviving row is the first input row with its id, and
surviving rows keep their relative input order. -/
theorem preprocess_reviews_dedup_first (rows : List PrepRow) :
    ((preprocess_reviews rows).map (fun p => p.1.review_id)).Nodup
    ∧ (∀ p ∈ preprocess_reviews rows,
        rows.find? (fun x => x.review_id == p.1.review_id) = some p.1)
    ∧ List.Sublist ((preprocess_reviews rows).map Prod.fst) rows := by
  have hsub : List.Sublist (preprocess_reviews rows)
      ((drop_duplicates_first rows).map addLength) :=
    List.filter_sublist _
  refine ⟨?_, ?_, ?_⟩
  · have h1 := hsub.map (fun p => p.1.review_id)
    rw [map_id_addLength] at h1
    exact (dropDupAux_ids_nodup rows []).sublist h1
  · intro p hp
    have h1 := hsub.subset hp
    rcases List.mem_map.mp h1 with ⟨r, hr, heq⟩
    have hp1 : p.1 = r := by rw [← heq]; rfl
    rw [hp1]
    exact dropDupAux_find rows [] r hr
  · have h1 := hsub.map Prod.fst
    rw [map_fst_addLength] at h1
    exact h1.trans (dropDupAux_sublist rows [])

/-- Example rows for the C3 witness. -/
def c3Rows : List PrepRow :=
  [⟨"ida".data, "hello".data⟩, ⟨"ida".data, "world".data⟩,
   ⟨"idb".data, "great".data⟩]

/-- Witness for C3 at concrete rows containing a duplicated id. -/
theorem preprocess_reviews_dedup_first_witness :
    c3Rows.find? (fun x => x.review_id == ("ida".data))
      = some ⟨"ida".data, "hello".data⟩ :=
  (preprocess_reviews_dedup_first c3Rows).2.1
    (⟨"ida".data, "hello".data⟩, 5) (by decide)

/-- C8: every output row of `preprocess_reviews` has `review_length`
equal to the character length of its text and a text of at least 5
characters, and every deduplicated row with a text of at least 5
characters survives the filter. -/
theorem preprocess_reviews_length_filter (rows : List PrepRow) :
    (∀ p ∈ preprocess_reviews rows,
        p.2 = p.1.review_text.length ∧ 5 ≤ p.1.review_text.length)
    ∧ (∀ r ∈ drop_duplicates_first rows, 5 ≤ r.review_text.length →
        (r, r.review_text.length) ∈ preprocess_reviews rows) := by
  constructor
  · intro p hp
    have h1 := List.mem_of_mem_filter hp
    have h2 := List.of_mem_filter hp
    rcases List.mem_map.mp h1 with ⟨r, _, heq⟩
    cases heq
    simp only [addLength, decide_eq_true_eq] at h2 ⊢
    exact ⟨trivial, h2⟩
  · intro r hr h5
    refine List.mem_filter.mpr ⟨List.mem_map.mpr ⟨r, hr, rfl⟩, ?_⟩
    simpa using h5

/-- Example rows for the C8 witness. -/
def c8Rows : List PrepRow :=
  [⟨"ida".data, "hello".data⟩, ⟨"idb".data, "hi".data⟩]

/-- Witness for C8: the long row survives with its length, the short one
is checked through the first conjunct. -/
theorem preprocess_reviews_length_filter_witness :
    (⟨"ida".data, "hello".data⟩, ("hello".data).length)
      ∈ preprocess_reviews c8Rows :=
  (preprocess_reviews_length_filter c8Rows).2
    ⟨"ida".data, "hello".data⟩ (by decide) (by decide)

/-!
Lemmas about `range(0, n, bs)` and the induced consecutive slices.
-/

theorem pyRange0_zero (bs : Nat) : pyRange0 0 bs = [] := by
  unfold pyRange0
  cases bs with
  | zero => rfl
  | succ b =>
    rw [Nat.div_eq_of_lt (by omega)]
    rfl

theorem ceil_div_succ {n bs : Nat} (hbs : 0 < bs) (hn : 0 < n) :
    (n + bs - 1) / bs = (n - bs + bs - 1) / bs + 1 := by
  have h1 : n + bs - 1 = (n - 1) + bs := by omega
  rw [h1, Nat.add_div_right _ hbs]
  rcases Nat.lt_or_ge n bs with h | h
  · have h2 : n - bs = 0 := by omega
    rw [h2]
    rw [Nat.div_eq_of_lt (by omega), Nat.div_eq_of_lt (by omega)]
  · have h2 : n - bs + bs - 1 = n - 1 := by omega
    rw [h2]

theorem pyRange0_cons {n bs : Nat} (hbs : 0 < bs) (hn : 0 < n) :
    pyRange0 n bs = 0 :: (pyRange0 (n - bs) bs).map (fun i => i + bs) := by
  unfold pyRange0
  rw [ceil_div_succ hbs hn, List.range_succ_eq_map]
  rw [List.map_cons, List.map_map, List.map_map, Nat.zero_mul]
  refine congrArg (fun t => 0 :: t) ?_
  apply List.map_congr_left
  intro j _
  simp only [Function.comp]
  rw [Nat.succ_mul]

theorem pySlices_cons {bs : Nat} (hbs : 0 < bs) {l : List α} (hl : l ≠ []) :
    pySlices bs l = l.take bs :: pySlices bs (l.drop bs) := by
  unfold pySlices
  have hn : 0 < l.length := List.length_pos.mpr hl
  rw [pyRange0_cons hbs hn, List.map_cons, List.length_drop]
  refine congrArg₂ (fun (a : List α) (t : List (List α)) => a :: t) (by simp) ?_
  rw [List.map_map]
  apply List.map_congr_left
  intro i _
  simp only [Function.comp]
  rw [List.drop_drop]
  rw [Nat.add_comm bs i]

theorem pySlices_join_aux {bs : Nat} (hbs : 0 < bs) :
    ∀ (n : Nat) (l : List α), l.length ≤ n → (pySlices bs l).flatten = l := by
  intro n
  induction n with
  | zero =>
    intro l hl
    have : l = [] := List.eq_nil_of_length_eq_zero (Nat.le_zero.mp hl)
    subst this
    simp [pySlices, pyRange0_zero]
  | succ n ih =>
    intro l hl
    rcases List.eq_nil_or_concat l with rfl | _
    · simp [pySlices, pyRange0_zero]
    · have hne : l ≠ [] := by
        rintro rfl
        simp_all
      rw [pySlices_cons hbs hne, List.flatten_cons]
      rw [ih (l.drop bs) (by rw [List.length_drop]; omega)]
      exact List.take_append_drop bs l

theorem pySlices_join {bs : Nat} (hbs : 0 < bs) (l : List α) :
    (pySlices bs l).flatten = l :=
  pySlices_join_aux hbs l.length l (Nat.le_refl _)

theorem pyRange0_mem {n bs i : Nat} (hbs : 0 < bs) (hi : i ∈ pyRange0 n bs) :
    i < n := by
  unfold pyRange0 at hi
  rcases List.mem_map.mp hi with ⟨j, hj, rfl⟩
  have hj1 : j + 1 ≤ (n + bs - 1) / bs := List.mem_range.mp hj
  have hj2 : (j + 1) * bs ≤ n + bs - 1 := (Nat.le_div_iff_mul_le hbs).mp hj1
  rw [Nat.succ_mul] at hj2
  have hx : j * bs + bs ≤ n + bs - 1 := hj2
  omega

theorem pySlices_mem {bs : Nat} (hbs : 0 < bs) {l : List α}
    {b : List α} (hb : b ∈ pySlices bs l) : b ≠ [] ∧ b.length ≤ bs := by
  unfold pySlices at hb
  rcases List.mem_map.mp hb with ⟨i, hi, rfl⟩
  have hlt : i < l.length := pyRange0_mem hbs hi
  constructor
  · apply List.ne_nil_of_length_pos
    rw [List.length_take, List.length_drop]
    omega
  · exact List.length_take_le _ _

theorem pySlices_full {bs : Nat} (hbs : 0 < bs) (l : List α) (j : Nat)
    (hj : j + 1 < (pySlices bs l).length) :
    ((pySlices bs l).getD j []).length = bs := by
  have hlen : (pySlices bs l).length = (l.length + bs - 1) / bs := by
    unfold pySlices pyRange0
    rw [List.length_map, List.length_map, List.length_range]
  rw [hlen] at hj
  have hget : (pySlices bs l).getD j [] = (l.drop (j * bs)).take bs := by
    unfold pySlices pyRange0
    rw [List.getD_eq_getElem?_getD, List.getElem?_map, List.getElem?_map]
    rw [List.getElem?_range (by omega)]
    rfl
  rw [hget, List.length_take, List.length_drop]
  have hj2 : (j + 2) * bs ≤ l.length + bs - 1 :=
    (Nat.le_div_iff_mul_le hbs).mp hj
  have hstep : (j + 2) * bs = j * bs + bs + bs := by ring
  rw [hstep] at hj2
  omega

/-!
The batching loop of `analyze_reviews` as a flatten of per-slice results.
-/

theorem foldl_append_eq_flatten {α β : Type} (g : α → List β) :
    ∀ (idxs : List α) (acc : List β),
      idxs.foldl (fun a i => a ++ g i) acc = acc ++ (idxs.map g).flatten := by
  intro idxs
  induction idxs with
  | nil =>
    intro acc
    simp
  | cons i t ih =>
    intro acc
    rw [List.foldl_cons, ih, List.map_cons, List.flatten_cons,
      List.append_assoc]

theorem analyze_reviews_raw_eq
    (classifyBatch : List (List Char) → List SentResult)
    (texts : List (List Char)) (batch_size : Nat) :
    analyze_reviews_raw classifyBatch texts batch_size
      = ((pySlices batch_size texts).map classifyBatch).flatten := by
  unfold analyze_reviews_raw pySlices
  rw [foldl_append_eq_flatten]
  rw [List.nil_append, List.map_map]
  rfl

/-- C2: for a positive batch size the loop of `analyze_reviews` visits
the rows in consecutive slices whose concatenation is the input in
order; when the classifier acts element-wise, the loop assigns row `i`
exactly the classifier's result on text `i`, and the whole function is
the element-wise classifier followed by the label upper-casing. -/
theorem analyze_reviews_batches_pointwise (f : List Char → SentResult)
    (texts : List (List Char)) (batch_size : Nat) (hbs : 0 < batch_size) :
    (pySlices batch_size texts).flatten = texts
    ∧ analyze_reviews_raw (fun b => b.map f) texts batch_size = texts.map f
    ∧ analyze_reviews (fun b => b.map f) texts batch_size
        = texts.map (fun t => upperResult (f t)) := by
  have hflat := pySlices_join hbs texts
  have hraw : analyze_reviews_raw (fun b => b.map f) texts batch_size
      = texts.map f := by
    rw [analyze_reviews_raw_eq]
    rw [← List.map_flatten, hflat]
  refine ⟨hflat, hraw, ?_⟩
  unfold analyze_reviews
  rw [hraw, List.map_map]
  rfl

/-- Witness for C2 at a concrete classifier, three texts and batch
size 2. -/
theorem analyze_reviews_batches_pointwise_witness :
    (pySlices 2 [("ab").data, ("cd").data, ("e").data]).flatten
        = [("ab").data, ("cd").data, ("e").data]
    ∧ analyze_reviews_raw (fun b => b.map (fun t => ⟨t, 0⟩))
        [("ab").data, ("cd").data, ("e").data] 2
        = [("ab").data, ("cd").data, ("e").data].map (fun t => ⟨t, 0⟩)
    ∧ analyze_reviews (fun b => b.map (fun t => ⟨t, 0⟩))
        [("ab").data, ("cd").data, ("e").data] 2
        = [("ab").data, ("cd").data, ("e").data].map
            (fun t => upperResult ⟨t, 0⟩) :=
  analyze_reviews_batches_pointwise (fun t => ⟨t, 0⟩)
    [("ab").data, ("cd").data, ("e").data] 2 (by decide)

theorem analyze_sentiment_batch_length
    (pipelineCall : List (List Char) → Option (List SentResult))
    (hlen : ∀ b rs, pipelineCall b = some rs → rs.length = b.length)
    (b : List (List Char)) :
    (analyze_sentiment_batch pipelineCall b).length = b.length := by
  unfold analyze_sentiment_batch
  cases h : pipelineCall b with
  | none => simp
  | some rs => simpa using hlen b rs h

theorem analyze_reviews_length
    (classifyBatch : List (List Char) → List SentResult)
    (hc : ∀ b, (classifyBatch b).length = b.length)
    (texts : List (List Char)) (batch_size : Nat) (hbs : 0 < batch_size) :
    (analyze_reviews classifyBatch texts batch_size).length
      = texts.length := by
  unfold analyze_reviews
  rw [List.length_map, analyze_reviews_raw_eq, List.length_flatten]
  have hmap : ((pySlices batch_size texts).map classifyBatch).map
      List.length = (pySlices batch_size texts).map List.length := by
    rw [List.map_map]
    exact List.map_congr_left (fun b _ => hc b)
  rw [hmap, ← List.length_flatten, pySlices_join hbs texts]

/-- C6: when the pipeline raises on a batch, `analyze_sentiment_batch`
returns one `NEUTRAL`/`0.0` entry per text of the batch; consequently
`analyze_reviews` (whose per-batch classifier is the guarded pipeline)
returns exactly one labelled result per input row, whether or not
inference fails, provided a successful pipeline call is element-wise in
length. -/
theorem sentiment_fallback_alignment
    (pipelineCall : List (List Char) → Option (List SentResult))
    (texts : List (List Char)) (batch_size : Nat) (hbs : 0 < batch_size)
    (hlen : ∀ b rs, pipelineCall b = some rs → rs.length = b.length) :
    (∀ ts, pipelineCall ts = none →
      analyze_sentiment_batch pipelineCall ts
        = List.replicate ts.length ⟨"NEUTRAL".data, 0⟩)
    ∧ (analyze_reviews (fun b => analyze_sentiment_batch pipelineCall b)
        texts batch_size).length = texts.length := by
  constructor
  · intro ts h
    simp [analyze_sentiment_batch, h]
  · exact analyze_reviews_length _
      (fun b => analyze_sentiment_batch_length pipelineCall hlen b)
      texts batch_size hbs

/-- Witness for C6 with a pipeline that always raises. -/
theorem sentiment_fallback_alignment_witness :
    (analyze_sentiment_batch (fun _ => none) [("bad app").data]
        = List.replicate 1 ⟨"NEUTRAL".data, 0⟩)
    ∧ (analyze_reviews (fun b => analyze_sentiment_batch (fun _ => none) b)
        [("bad app").data, ("nice").data] 1).length = 2 := by
  have h := sentiment_fallback_alignment (fun _ => none)
    [("bad app").data, ("nice").data] 1 (by decide)
    (fun b rs hb => by cases hb)
  exact ⟨h.1 [("bad app").data] rfl, h.2⟩

/-!
Record preparation and batch submission in `insert_reviews`.
-/

theorem prepare_records_eq_filterMap (rows : List InsRow)
    (mapping : List (List Char × Nat)) :
    prepare_records rows mapping = rows.filterMap (fun row =>
      match pyDictGet mapping row.bank with
      | none => none
      | some bank_id =>
        if bank_id = 0 then none else some (mkRecord row bank_id)) := by
  suffices h : ∀ (rs : List InsRow) (acc : List ReviewRec),
      rs.foldl (fun records row =>
        match pyDictGet mapping row.bank with
        | none => records
        | some bank_id =>
          if bank_id = 0 then records
          else records ++ [mkRecord row bank_id]) acc
      = acc ++ rs.filterMap (fun row =>
          match pyDictGet mapping row.bank with
          | none => none
          | some bank_id =>
            if bank_id = 0 then none else some (mkRecord row bank_id)) by
    simpa [prepare_records] using h rows []
  intro rs
  induction rs with
  | nil =>
    intro acc
    simp
  | cons r t ih =>
    intro acc
    rw [List.foldl_cons, List.filterMap_cons]
    cases h : pyDictGet mapping r.bank with
    | none =>
      simp only [h]
      exact ih acc
    | some bid =>
      by_cases hb : bid = 0
      · simp only [h, hb, if_pos rfl]
        exact ih acc
      · simp only [h, if_neg hb]
        rw [ih (acc ++ [mkRecord r bid]), List.append_assoc]
        rfl

/-- C7 counterexample: a bank that is present in the mapping but mapped
to id 0 is skipped by the Python truthiness test `if bank_id:`, so no
record is prepared for its row even though the bank is in the
mapping. -/
def c7Row : InsRow :=
  ⟨"rev".data, "A".data, "text".data, 5, "d".data, none, none, none, none⟩

/-- The claim as frozen fails here: the bank of `c7Row` is present in
the mapping, yet `prepare_records` prepares no record for the row. -/
theorem prepare_records_skips_present_zero_bank :
    pyDictGet [(("A").data, 0)] c7Row.bank = some 0
    ∧ prepare_records [c7Row] [(("A").data, 0)] = [] := by
  constructor
  · rfl
  · rfl

/-- C7 (amended): `insert_reviews` prepares exactly one record for each
row whose bank maps to a truthy (present and nonzero) id and none
otherwise, and submits the records in consecutive batches of 100 whose
concatenation is the record list, every batch nonempty of size at most
100 and every batch but the last of size exactly 100. -/
theorem prepare_records_truthy_batches (rows : List InsRow)
    (mapping : List (List Char × Nat)) :
    prepare_records rows mapping = rows.filterMap (fun row =>
      match pyDictGet mapping row.bank with
      | none => none
      | some bank_id =>
        if bank_id = 0 then none else some (mkRecord row bank_id))
    ∧ (pySlices 100 (prepare_records rows mapping)).flatten
        = prepare_records rows mapping
    ∧ (∀ b ∈ pySlices 100 (prepare_records rows mapping),
        b ≠ [] ∧ b.length ≤ 100)
    ∧ ∀ j, j + 1 < (pySlices 100 (prepare_records rows mapping)).length →
        ((pySlices 100 (prepare_records rows mapping)).getD j []).length
          = 100 := by
  refine ⟨prepare_records_eq_filterMap rows mapping, ?_, ?_, ?_⟩
  · exact pySlices_join (by omega) _
  · intro b hb
    exact pySlices_mem (by omega) hb
  · intro j hj
    exact pySlices_full (by omega) _ j hj

/-- Example row and mapping for the C7 witness. -/
def c7RowB : InsRow :=
  ⟨"rev".data, "B".data, "text".data, 4, "d".data, some ("POSITIVE".data),
   some 1, some ("Other".data), some ("Google Play".data)⟩

/-- Witness for C7 at a mapping with a truthy id: the single prepared
record forms one nonempty batch of size at most 100. -/
theorem prepare_records_truthy_batches_witness :
    [mkRecord c7RowB 7] ≠ [] ∧ [mkRecord c7RowB 7].length ≤ 100 :=
  (prepare_records_truthy_batches [c7RowB] [(("B").data, 7)]).2.2.1
    [mkRecord c7RowB 7] (by decide)

/-!
Runs of the insertion loops with and without an exception.
-/

theorem insert_reviews_go_error :
    ∀ (batches : List (List ReviewRec)) (tbl : List ReviewRec)
      (i count k : Nat), i ≤ k → k < i + batches.length →
      insert_reviews_go tbl batches i (some k) count = .error () := by
  intro batches
  induction batches with
  | nil =>
    intro tbl i count k h1 h2
    simp at h2
    omega
  | cons b bs ih =>
    intro tbl i count k h1 h2
    simp only [insert_reviews_go]
    by_cases hk : k = i
    · simp [hk]
    · rw [if_neg (by simp [hk])]
      exact ih _ (i + 1) _ k (by omega) (by simp at h2 ⊢; omega)

theorem insert_reviews_go_ok :
    ∀ (batches : List (List ReviewRec)) (tbl : List ReviewRec)
      (i count k : Nat), i + batches.length ≤ k →
      ∃ working cnt, insert_reviews_go tbl batches i (some k) count
        = .ok (working, cnt, i + batches.length) := by
  intro batches
  induction batches with
  | nil =>
    intro tbl i count k h
    exact ⟨tbl, count, by simp [insert_reviews_go]⟩
  | cons b bs ih =>
    intro tbl i count k h
    simp only [insert_reviews_go]
    rw [if_neg (by simp at h ⊢; omega)]
    rcases ih (applyBatch tbl b) (i + 1) (count + countNew tbl b) k
      (by simp at h ⊢; omega) with ⟨w, c, hw⟩
    refine ⟨w, c, ?_⟩
    rw [hw]
    have harith : i + 1 + bs.length = i + (b :: bs).length := by
      simp
      omega
    rw [harith]

theorem insert_reviews_go_none :
    ∀ (batches : List (List ReviewRec)) (tbl : List ReviewRec)
      (i count : Nat), ∃ cnt,
      insert_reviews_go tbl batches i none count
        = .ok (batches.foldl applyBatch tbl, cnt, i + batches.length) := by
  intro batches
  induction batches with
  | nil =>
    intro tbl i count
    exact ⟨count, by simp [insert_reviews_go]⟩
  | cons b bs ih =>
    intro tbl i count
    simp only [insert_reviews_go]
    rw [if_neg (by simp)]
    rcases ih (applyBatch tbl b) (i + 1) (count + countNew tbl b)
      with ⟨c, hc⟩
    refine ⟨c, ?_⟩
    rw [hc, List.foldl_cons]
    have harith : i + 1 + bs.length = i + (b :: bs).length := by
      simp
      omega
    rw [harith]

/-- C4: if an exception is raised at any executed operation of
`insert_reviews` (one of the batch inserts, or the final commit) or of
`insert_banks` (one of the SELECT or INSERT statements, or the final
commit), the transaction is rolled back — the resulting table is the
committed state from before the call — and the function returns `0`
(respectively the empty mapping). -/
theorem insert_rollback_on_exception
    (committed : List ReviewRec) (rows : List InsRow)
    (mapping : List (List Char × Nat)) (k : Nat)
    (hk : k ≤ (pySlices 100 (prepare_records rows mapping)).length)
    (committedB : List BankRec) (nextId : Nat)
    (banks_data : List (List Char × List Char)) (kb : Nat)
    (hkb : banksRaises committedB nextId banks_data kb) :
    insert_reviews committed rows mapping (some k) = (committed, 0)
    ∧ insert_banks committedB nextId banks_data (some kb)
        = (committedB, []) := by
  constructor
  · simp only [insert_reviews]
    rcases Nat.lt_or_ge k
        (pySlices 100 (prepare_records rows mapping)).length with h | h
    · rw [insert_reviews_go_error _ committed 0 0 k (Nat.zero_le k)
        (by omega)]
    · have hk2 : k = (pySlices 100 (prepare_records rows mapping)).length :=
        le_antisymm hk h
      rcases insert_reviews_go_ok
          (pySlices 100 (prepare_records rows mapping)) committed 0 0 k
          (by omega) with ⟨w, c, hw⟩
      rw [hw]
      simp [hk2]
  · unfold insert_banks
    unfold banksRaises at hkb
    cases hgo : insert_banks_go committedB nextId [] banks_data 0 (some kb) with
    | error e => simp
    | ok r =>
      rw [hgo] at hkb
      rcases r with ⟨w, n2, acc, i⟩
      simp only at hkb
      simp [hkb]

/-- Rows, mapping and banks for the C4 witness. -/
def c4Row : InsRow :=
  ⟨"rev".data, "A".data, "text".data, 3, "d".data, none, none, none, none⟩

/-- Witness for C4: with one prepared batch (respectively one bank) an
exception at operation 0 rolls back and returns `0` (respectively the
empty mapping). -/
theorem insert_rollback_on_exception_witness :
    insert_reviews [] [c4Row] [(("A").data, 1)] (some 0) = ([], 0)
    ∧ insert_banks [] 1 [(("A").data, ("app").data)] (some 0) = ([], []) :=
  insert_rollback_on_exception [] [c4Row] [(("A").data, 1)] 0 (by decide)
    [] 1 [(("A").data, ("app").data)] 0 (by trivial)

/-!
Idempotence of `ON CONFLICT (review_id) DO NOTHING` insertion.
-/

theorem insertOnConflict_of_hasId (tbl : List ReviewRec) (r : ReviewRec)
    (h : hasId tbl r.review_id = true) : insertOnConflict tbl r = tbl := by
  unfold insertOnConflict
  rw [if_pos h]

theorem hasId_insertOnConflict {tbl : List ReviewRec} {id : List Char}
    (r : ReviewRec) (h : hasId tbl id = true) :
    hasId (insertOnConflict tbl r) id = true := by
  unfold insertOnConflict
  split
  · exact h
  · unfold hasId at h ⊢
    rw [List.any_append]
    simp [h]

theorem hasId_foldl (l : List ReviewRec) :
    ∀ (tbl : List ReviewRec) (id : List Char), hasId tbl id = true →
      hasId (l.foldl insertOnConflict tbl) id = true := by
  induction l with
  | nil =>
    intro tbl id h
    simpa using h
  | cons a t ih =>
    intro tbl id h
    rw [List.foldl_cons]
    exact ih _ id (hasId_insertOnConflict a h)

theorem hasId_self_insert (tbl : List ReviewRec) (r : ReviewRec) :
    hasId (insertOnConflict tbl r) r.review_id = true := by
  unfold insertOnConflict
  split
  · assumption
  · unfold hasId
    rw [List.any_append]
    simp

theorem hasId_after (l : List ReviewRec) :
    ∀ (tbl : List ReviewRec) (r : ReviewRec), r ∈ l →
      hasId (l.foldl insertOnConflict tbl) r.review_id = true := by
  induction l with
  | nil =>
    intro tbl r hr
    simp at hr
  | cons a t ih =>
    intro tbl r hr
    rw [List.foldl_cons]
    rcases List.mem_cons.mp hr with rfl | hr'
    · exact hasId_foldl t _ _ (hasId_self_insert tbl r)
    · exact ih _ r hr'

theorem foldl_insert_stable (l : List ReviewRec) :
    ∀ (tbl : List ReviewRec), (∀ r ∈ l, hasId tbl r.review_id = true) →
      l.foldl insertOnConflict tbl = tbl := by
  induction l with
  | nil =>
    intro tbl _
    rfl
  | cons a t ih =>
    intro tbl h
    rw [List.foldl_cons,
      insertOnConflict_of_hasId tbl a (h a (List.mem_cons_self _ _))]
    exact ih tbl (fun r hr => h r (List.mem_cons_of_mem _ hr))

theorem foldl_applyBatch_flatten (batches : List (List ReviewRec)) :
    ∀ (tbl : List ReviewRec),
      batches.foldl applyBatch tbl
        = batches.flatten.foldl insertOnConflict tbl := by
  induction batches with
  | nil =>
    intro tbl
    rfl
  | cons b bs ih =>
    intro tbl
    rw [List.foldl_cons, List.flatten_cons, List.foldl_append]
    exact ih _

theorem insert_reviews_none_fst (committed : List ReviewRec)
    (rows : List InsRow) (mapping : List (List Char × Nat)) :
    (insert_reviews committed rows mapping none).1
      = (prepare_records rows mapping).foldl insertOnConflict committed := by
  simp only [insert_reviews]
  rcases insert_reviews_go_none (pySlices 100 (prepare_records rows mapping))
      committed 0 0 with ⟨cnt, hgo⟩
  rw [hgo]
  simp only [reduceCtorEq, if_false]
  rw [foldl_applyBatch_flatten, pySlices_join (by omega)]

/-- C5: a record whose `review_id` is already present is skipped by the
`ON CONFLICT (review_id) DO NOTHING` insert, and running
`insert_reviews` a second time with the same input leaves the reviews
table unchanged. -/
theorem insert_reviews_idempotent (committed : List ReviewRec)
    (rows : List InsRow) (mapping : List (List Char × Nat)) :
    (∀ tbl r, hasId tbl r.review_id = true → insertOnConflict tbl r = tbl)
    ∧ (insert_reviews ((insert_reviews committed rows mapping none).1)
        rows mapping none).1
      = (insert_reviews committed rows mapping none).1 := by
  refine ⟨insertOnConflict_of_hasId, ?_⟩
  rw [insert_reviews_none_fst, insert_reviews_none_fst]
  exact foldl_insert_stable _ _
    (fun r hr => hasId_after (prepare_records rows mapping) committed r hr)

/-- A concrete record for the C5 witness. -/
def c5Rec : ReviewRec :=
  ⟨"rev".data, 1, "text".data, 5, "d".data, "POSITIVE".data, 1,
   "Other".data, "Google Play".data⟩

/-- Witness for C5: inserting a record whose id is already in the table
leaves the table unchanged. -/
theorem insert_reviews_idempotent_witness :
    insertOnConflict [c5Rec] c5Rec = [c5Rec] :=
  (insert_reviews_idempotent [] [] []).1 [c5Rec] c5Rec (by decide)

/-!
The theme-collection loop of `categorize_review_themes` as a filter.
-/

theorem foldl_theme_filter (P : String × List String → Bool) :
    ∀ (l : List (String × List String)) (acc : List String),
      l.foldl (fun a p => if P p then a ++ [p.1] else a) acc
        = acc ++ (l.filter P).map Prod.fst := by
  intro l
  induction l with
  | nil =>
    intro acc
    simp
  | cons p t ih =>
    intro acc
    rw [List.foldl_cons]
    by_cases h : P p
    · rw [if_pos h, ih, List.filter_cons_of_pos h, List.map_cons,
        List.append_assoc]
      rfl
    · rw [if_neg h, ih, List.filter_cons_of_neg (by simp [h])]

theorem theme_names_nodup : (theme_keywords.map Prod.fst).Nodup := by
  decide

theorem theme_names_long :
    ∀ a ∈ theme_keywords.map Prod.fst, 12 ≤ a.data.length := by
  decide

theorem joinComma_length_ge (a : List Char) (rest : List (List Char)) :
    a.length ≤ (joinComma (a :: rest)).length := by
  cases rest with
  | nil => simp [joinComma]
  | cons b t => simp [joinComma]

/-- C1: `categorize_review_themes` returns the comma-separated list of
exactly the themes (in dictionary order, each at most once) with at
least one whole-word keyword match against the preprocessed text, and
returns `'Other'` exactly when no keyword of any theme matches. -/
theorem categorize_review_themes_spec (t : Option (List Char)) :
    categorize_review_themes t
      = (if matchedThemes t = [] then ("Other".data)
         else joinComma ((matchedThemes t).map (fun s => s.data)))
    ∧ (matchedThemes t).Nodup
    ∧ List.Sublist (matchedThemes t) (theme_keywords.map Prod.fst)
    ∧ (categorize_review_themes t = ("Other".data) ↔ matchedThemes t = []) := by
  have hsub : List.Sublist (matchedThemes t) (theme_keywords.map Prod.fst) :=
    (List.filter_sublist _).map Prod.fst
  have hfold : categorize_review_themes t
      = (if matchedThemes t = [] then ("Other".data)
         else joinComma ((matchedThemes t).map (fun s => s.data))) := by
    simp only [categorize_review_themes, matchedThemes]
    rw [foldl_theme_filter]
    simp only [List.nil_append, List.isEmpty_iff]
  have hne : matchedThemes t ≠ [] →
      joinComma ((matchedThemes t).map (fun s => s.data)) ≠ ("Other".data) := by
    intro h0 heq
    rcases hm : matchedThemes t with _ | ⟨a, rest⟩
    · exact h0 hm
    · have ha : a ∈ theme_keywords.map Prod.fst :=
        hsub.subset (hm ▸ List.mem_cons_self a rest)
      have hlen := theme_names_long a ha
      rw [hm, List.map_cons] at heq
      have h1 := joinComma_length_ge a.data (rest.map (fun s => s.data))
      rw [heq] at h1
      have h2 : ("Other".data).length = 5 := rfl
      have h3 : a.data.length = (String.data a).length := rfl
      omega
  refine ⟨hfold, ?_, hsub, ?_⟩
  · exact theme_names_nodup.sublist hsub
  · constructor
    · intro h
      by_contra hcon
      rw [hfold, if_neg hcon] at h
      exact hne hcon h
    · intro h
      rw [hfold, if_pos h]

/-- Witness for C1 at a concrete review text. -/
theorem categorize_review_themes_spec_witness :
    (matchedThemes (some ("Login failed!".data))).Nodup :=
  (categorize_review_themes_spec (some ("Login failed!".data))).2.1

/-!
Shape and idempotence of `preprocess_text`.
-/

/-- Adjacent characters are not both whitespace. -/
def noTwoWs (a b : Char) : Prop :=
  ¬(pyIsSpace a = true ∧ pyIsSpace b = true)

theorem char_toNat_ofNat {n : Nat} (h : n < 55296) :
    (Char.ofNat n).toNat = n := by
  rw [Char.ofNat, dif_pos (Or.inl h)]
  rfl

theorem pyLowerChar_toNat_upper {c : Char}
    (h : 65 ≤ c.toNat ∧ c.toNat ≤ 90) :
    (pyLowerChar c).toNat = c.toNat + 32 := by
  unfold pyLowerChar
  rw [if_pos h]
  exact char_toNat_ofNat (by omega)

theorem pyLowerChar_eq_self {c : Char}
    (h : ¬(65 ≤ c.toNat ∧ c.toNat ≤ 90)) : pyLowerChar c = c := by
  unfold pyLowerChar
  rw [if_neg h]

theorem isUpperAlpha_pyLowerChar (c : Char) :
    isUpperAlpha (pyLowerChar c) = false := by
  unfold isUpperAlpha
  by_cases h : 65 ≤ c.toNat ∧ c.toNat ≤ 90
  · rw [pyLowerChar_toNat_upper h]
    simp
    omega
  · rw [pyLowerChar_eq_self h]
    simp
    omega

theorem isLowerAlpha_pyLowerChar_of_alpha {c : Char}
    (h : isAsciiAlpha (pyLowerChar c) = true) :
    isLowerAlpha (pyLowerChar c) = true := by
  unfold isAsciiAlpha at h
  rw [isUpperAlpha_pyLowerChar] at h
  simpa using h

theorem pyIsSpace_toNat {c : Char} (h : pyIsSpace c = true) :
    c.toNat ≤ 32 := by
  unfold pyIsSpace at h
  simp only [Bool.or_eq_true, beq_iff_eq] at h
  rcases h with ((((h | h) | h) | h) | h) | h <;> subst h <;> decide

theorem not_space_of_lower {c : Char} (h : isLowerAlpha c = true) :
    pyIsSpace c = false := by
  cases hs : pyIsSpace c
  · rfl
  · have h1 := pyIsSpace_toNat hs
    unfold isLowerAlpha at h
    simp at h
    omega

theorem space_isSpace : pyIsSpace ' ' = true := by decide

theorem step2_char (c : Char) :
    isLowerAlpha (subChar (pyLowerChar c)) = true
    ∨ pyIsSpace (subChar (pyLowerChar c)) = true := by
  unfold subChar
  split
  · rename_i h
    simp only [Bool.or_eq_true] at h
    rcases h with h1 | h2
    · exact Or.inl (isLowerAlpha_pyLowerChar_of_alpha h1)
    · exact Or.inr h2
  · exact Or.inr space_isSpace

theorem step2_chars {s : List Char} {c : Char}
    (hc : c ∈ subNonAlpha (pyLowerStr s)) :
    isLowerAlpha c = true ∨ pyIsSpace c = true := by
  unfold subNonAlpha pyLowerStr at hc
  rw [List.map_map] at hc
  rcases List.mem_map.mp hc with ⟨a, _, rfl⟩
  exact step2_char a

theorem collapseWs_head :
    ∀ (l : List Char), (collapseWs l).head?
      = l.head?.map (fun c => if pyIsSpace c then ' ' else c) := by
  intro l
  induction l with
  | nil => rfl
  | cons c₁ t ih =>
    cases t with
    | nil =>
      simp only [collapseWs]
      split <;> rename_i h
      · simp [h]
      · simp at h
        simp [h]
    | cons c₂ rest =>
      simp only [collapseWs]
      by_cases h1 : pyIsSpace c₁ = true
      · by_cases h2 : pyIsSpace c₂ = true
        · rw [if_pos h1, if_pos h2, ih]
          simp [h1, h2]
        · rw [if_pos h1, if_neg h2]
          simp [h1]
      · rw [if_neg h1]
        simp at h1
        simp [h1]

theorem collapseWs_mem :
    ∀ (l : List Char) (c : Char), c ∈ collapseWs l →
      c = ' ' ∨ (c ∈ l ∧ pyIsSpace c = false) := by
  intro l
  induction l with
  | nil =>
    intro c hc
    simp [collapseWs] at hc
  | cons c₁ t ih =>
    cases t with
    | nil =>
      intro c hc
      simp only [collapseWs] at hc
      split at hc <;> rename_i h <;> simp at hc <;> subst hc
      · exact Or.inl rfl
      · simp at h
        exact Or.inr ⟨List.mem_cons_self _ _, h⟩
    | cons c₂ rest =>
      intro c hc
      simp only [collapseWs] at hc
      by_cases h1 : pyIsSpace c₁ = true
      · rw [if_pos h1] at hc
        by_cases h2 : pyIsSpace c₂ = true
        · rw [if_pos h2] at hc
          rcases ih c hc with h | ⟨hm, hw⟩
          · exact Or.inl h
          · exact Or.inr ⟨List.mem_cons_of_mem _ hm, hw⟩
        · rw [if_neg h2] at hc
          rcases List.mem_cons.mp hc with rfl | hc'
          · exact Or.inl rfl
          · rcases ih c hc' with h | ⟨hm, hw⟩
            · exact Or.inl h
            · exact Or.inr ⟨List.mem_cons_of_mem _ hm, hw⟩
      · rw [if_neg h1] at hc
        rcases List.mem_cons.mp hc with rfl | hc'
        · simp at h1
          exact Or.inr ⟨List.mem_cons_self _ _, h1⟩
        · rcases ih c hc' with h | ⟨hm, hw⟩
          · exact Or.inl h
          · exact Or.inr ⟨List.mem_cons_of_mem _ hm, hw⟩

theorem collapseWs_chain :
    ∀ (l : List Char), List.Chain' noTwoWs (collapseWs l) := by
  intro l
  induction l with
  | nil => simp [collapseWs]
  | cons c₁ t ih =>
    cases t with
    | nil =>
      simp only [collapseWs]
      split <;> simp
    | cons c₂ rest =>
      simp only [collapseWs]
      by_cases h1 : pyIsSpace c₁ = true
      · by_cases h2 : pyIsSpace c₂ = true
        · rw [if_pos h1, if_pos h2]
          exact ih
        · rw [if_pos h1, if_neg h2]
          simp only [Bool.not_eq_true] at h2
          refine ih.cons' ?_
          intro y hy
          rw [collapseWs_head] at hy
          simp [h2] at hy
          subst hy
          exact fun hcon => absurd hcon.2 (by simp [h2])
      · rw [if_neg h1]
        simp only [Bool.not_eq_true] at h1
        refine ih.cons' ?_
        intro y _
        exact fun hcon => absurd hcon.1 (by simp [h1])

theorem collapseWs_id :
    ∀ (l : List Char), (∀ c ∈ l, pyIsSpace c = true → c = ' ') →
      List.Chain' noTwoWs l → collapseWs l = l := by
  intro l
  induction l with
  | nil =>
    intro _ _
    rfl
  | cons c₁ t ih =>
    cases t with
    | nil =>
      intro hws _
      simp only [collapseWs]
      split
      · rename_i h
        rw [hws c₁ (List.mem_cons_self _ _) h]
      · rfl
    | cons c₂ rest =>
      intro hws hch
      have hpair := (List.chain'_cons.mp hch).1
      have htail := (List.chain'_cons.mp hch).2
      simp only [collapseWs]
      by_cases h1 : pyIsSpace c₁ = true
      · by_cases h2 : pyIsSpace c₂ = true
        · exact absurd ⟨h1, h2⟩ hpair
        · rw [if_pos h1, if_neg h2]
          have hc1 := hws c₁ (List.mem_cons_self _ _) h1
          rw [ih (fun c hc hs => hws c (List.mem_cons_of_mem _ hc) hs) htail,
            hc1]
      · rw [if_neg h1]
        rw [ih (fun c hc hs => hws c (List.mem_cons_of_mem _ hc) hs) htail]

theorem dropWhile_head_false {p : Char → Bool} :
    ∀ (l : List Char) (a : Char),
      (l.dropWhile p).head? = some a → p a = false := by
  intro l
  induction l with
  | nil =>
    intro a h
    simp [List.dropWhile] at h
  | cons x t ih =>
    intro a h
    by_cases hx : p x = true
    · rw [List.dropWhile_cons_of_pos hx] at h
      exact ih a h
    · rw [List.dropWhile_cons_of_neg hx] at h
      simp at h
      subst h
      simpa using hx

theorem prefix_dropTrailWs (l : List Char) :
    List.IsPrefix (dropTrailWs l) l := by
  unfold dropTrailWs
  have h : List.IsSuffix (l.reverse.dropWhile pyIsSpace) l.reverse :=
    List.dropWhile_suffix _
  have h2 := List.reverse_prefix.mpr h
  simpa using h2

theorem isPrefix_head {l₁ l₂ : List Char} (h : List.IsPrefix l₁ l₂)
    {a : Char} (ha : l₁.head? = some a) : l₂.head? = some a := by
  rcases h with ⟨t, rfl⟩
  cases l₁ with
  | nil => simp at ha
  | cons x u => simpa using ha

theorem pyStrip_head {l : List Char} {a : Char}
    (h : (pyStrip l).head? = some a) : pyIsSpace a = false := by
  unfold pyStrip at h
  have h2 := isPrefix_head (prefix_dropTrailWs (l.dropWhile pyIsSpace)) h
  exact dropWhile_head_false l a h2

theorem pyStrip_getLast {l : List Char} {a : Char}
    (h : (pyStrip l).getLast? = some a) : pyIsSpace a = false := by
  unfold pyStrip dropTrailWs at h
  rw [List.getLast?_reverse] at h
  exact dropWhile_head_false _ a h

theorem pyStrip_sublist (l : List Char) : List.Sublist (pyStrip l) l := by
  unfold pyStrip
  exact ((prefix_dropTrailWs _).sublist).trans (List.dropWhile_sublist _)

theorem pyStrip_chain {R : Char → Char → Prop} {l : List Char}
    (h : List.Chain' R l) : List.Chain' R (pyStrip l) := by
  unfold pyStrip
  have h1 : List.Chain' R (l.dropWhile pyIsSpace) :=
    h.suffix (List.dropWhile_suffix _)
  exact h1.prefix (prefix_dropTrailWs _)

theorem dropWhile_id_of_head {p : Char → Bool} {l : List Char}
    (h : ∀ a, l.head? = some a → p a = false) : l.dropWhile p = l := by
  cases l with
  | nil => rfl
  | cons x t =>
    rw [List.dropWhile_cons_of_neg]
    simp [h x rfl]

theorem pyStrip_id {l : List Char}
    (hh : ∀ a, l.head? = some a → pyIsSpace a = false)
    (hl : ∀ a, l.getLast? = some a → pyIsSpace a = false) :
    pyStrip l = l := by
  unfold pyStrip dropTrailWs
  rw [dropWhile_id_of_head hh]
  rw [dropWhile_id_of_head ?hrev, List.reverse_reverse]
  case hrev =>
    intro a ha
    rw [List.head?_reverse] at ha
    exact hl a ha

theorem mem_of_head? {l : List Char} {a : Char} (h : l.head? = some a) :
    a ∈ l := by
  cases l with
  | nil => simp at h
  | cons x t =>
    simp at h
    subst h
    exact List.mem_cons_self _ _

theorem mem_of_getLast? {l : List Char} {a : Char}
    (h : l.getLast? = some a) : a ∈ l := by
  rw [← List.head?_reverse] at h
  have h2 := mem_of_head? h
  simpa using h2

theorem map_id_on {α : Type} (f : α → α) :
    ∀ (l : List α), (∀ c ∈ l, f c = c) → l.map f = l := by
  intro l
  induction l with
  | nil =>
    intro _
    rfl
  | cons a t ih =>
    intro h
    rw [List.map_cons, h a (List.mem_cons_self _ _),
      ih (fun c hc => h c (List.mem_cons_of_mem _ hc))]

theorem preprocess_some_shape (s : List Char) :
    (∀ c ∈ preprocess_text (some s), isLowerAlpha c = true ∨ c = ' ')
    ∧ List.Chain' noTwoWs (preprocess_text (some s))
    ∧ (preprocess_text (some s)).head? ≠ some ' '
    ∧ (preprocess_text (some s)).getLast? ≠ some ' ' := by
  refine ⟨?_, ?_, ?_, ?_⟩
  · intro c hc
    have hc2 : c ∈ collapseWs (subNonAlpha (pyLowerStr s)) :=
      (pyStrip_sublist _).subset hc
    rcases collapseWs_mem _ c hc2 with rfl | ⟨hm, hw⟩
    · exact Or.inr rfl
    · rcases step2_chars hm with h | h
      · exact Or.inl h
      · rw [h] at hw
        cases hw
  · exact pyStrip_chain (collapseWs_chain _)
  · intro h
    have h2 := pyStrip_head h
    rw [space_isSpace] at h2
    cases h2
  · intro h
    have h2 := pyStrip_getLast h
    rw [space_isSpace] at h2
    cases h2

theorem preprocess_clean_id {l : List Char}
    (hc : ∀ c ∈ l, isLowerAlpha c = true ∨ c = ' ')
    (hch : List.Chain' noTwoWs l)
    (hh : l.head? ≠ some ' ')
    (hl : l.getLast? ≠ some ' ') :
    preprocess_text (some l) = l := by
  have hws : ∀ c ∈ l, pyIsSpace c = true → c = ' ' := by
    intro c hcl hspace
    rcases hc c hcl with h | h
    · rw [not_space_of_lower h] at hspace
      cases hspace
    · exact h
  have h1 : pyLowerStr l = l := by
    apply map_id_on
    intro c hcl
    apply pyLowerChar_eq_self
    rcases hc c hcl with h | h
    · unfold isLowerAlpha at h
      simp at h
      omega
    · subst h
      decide
  have h2 : subNonAlpha l = l := by
    apply map_id_on
    intro c hcl
    unfold subChar
    rw [if_pos]
    rcases hc c hcl with h | h
    · unfold isAsciiAlpha
      simp [h]
    · subst h
      simp [space_isSpace]
  have h3 : collapseWs l = l := collapseWs_id l hws hch
  show pyStrip (collapseWs (subNonAlpha (pyLowerStr l))) = l
  rw [h1, h2, h3]
  apply pyStrip_id
  · intro a ha
    rcases hc a (mem_of_head? ha) with h | h
    · exact not_space_of_lower h
    · subst h
      exact absurd ha hh
  · intro a ha
    rcases hc a (mem_of_getLast? ha) with h | h
    · exact not_space_of_lower h
    · subst h
      exact absurd ha hl

/-- C10: `preprocess_text` is idempotent, maps NaN to the empty string,
and its output consists of lowercase ASCII letters and single spaces
with no adjacent spaces and no leading or trailing space. -/
theorem preprocess_text_idempotent_clean (t : Option (List Char)) :
    preprocess_text (some (preprocess_text t)) = preprocess_text t
    ∧ preprocess_text none = []
    ∧ (∀ c ∈ preprocess_text t, isLowerAlpha c = true ∨ c = ' ')
    ∧ List.Chain' (fun a b => ¬(a = ' ' ∧ b = ' ')) (preprocess_text t)
    ∧ (preprocess_text t).head? ≠ some ' '
    ∧ (preprocess_text t).getLast? ≠ some ' ' := by
  cases t with
  | none =>
    refine ⟨rfl, rfl, ?_, ?_, ?_, ?_⟩
    · intro c hc
      simp [preprocess_text] at hc
    · simp [preprocess_text]
    · simp [preprocess_text]
    · simp [preprocess_text]
  | some s =>
    obtain ⟨hc, hch, hh, hl⟩ := preprocess_some_shape s
    refine ⟨preprocess_clean_id hc hch hh hl, rfl, hc, ?_, hh, hl⟩
    refine hch.imp ?_
    intro a b hab hcon
    exact hab ⟨by rw [hcon.1]; exact space_isSpace,
      by rw [hcon.2]; exact space_isSpace⟩

/-- Witness for C10 at a concrete messy review text. -/
theorem preprocess_text_idempotent_clean_witness :
    preprocess_text (some (preprocess_text (some ("  Crazy   App!! ".data))))
      = preprocess_text (some ("  Crazy   App!! ".data))
    ∧ (preprocess_text (some ("  Crazy   App!! ".data))).head? ≠ some ' ' :=
  ⟨(preprocess_text_idempotent_clean (some ("  Crazy   App!! ".data))).1,
   (preprocess_text_idempotent_clean
      (some ("  Crazy   App!! ".data))).2.2.2.2.1⟩
